import Mathlib

/-!
Verification of the timeout-injection tool of this repository
(`tool/add_all_timeouts.py` and `tool/add_timeouts_to_tests.py`).

File text is embedded as a list of characters (`Text`).  Python string
operations used by the tool (`in`, `str.replace`, `str.count`, `split('\n')`,
`'\n'.join`) are embedded as executable structural recursions below, and the
two regular expressions the tool uses
(`test\s*\([^)]+\)\s*async\s*\{` and `test\s*\([^)]+\)\s*async`)
are embedded as a deterministic matcher (`matchAsyncAt` / `searchAsync`):
both patterns are backtracking-free because every starred class is followed
by a literal the class excludes.
-/

namespace Soco

abbrev Text := List Char

/-- Python `s.count(ch)` for a single character. -/
def countChar (ch : Char) : Text → Nat
  | [] => 0
  | c :: cs => (if c = ch then 1 else 0) + countChar ch cs

/-- Per-line brace balance `line.count('{') - line.count('}')`. -/
def braceDelta (l : Text) : Int :=
  (countChar '\x7b' l : Int) - (countChar '\x7d' l : Int)

/-- Python `content.split('\n')`. -/
def splitNl : Text → List Text
  | [] => [[]]
  | c :: cs =>
    if c = '\n' then [] :: splitNl cs
    else
      match splitNl cs with
      | [] => [[c]]
      | l :: ls => (c :: l) :: ls

/-- Python `'\n'.join(lines)`. -/
def joinNl : List Text → Text
  | [] => []
  | [l] => l
  | l :: ls => l ++ '\n' :: joinNl ls

/-- Python substring test `pat in l`. -/
def hasSub (pat : Text) : Text → Bool
  | [] => pat.isEmpty
  | c :: cs => pat.isPrefixOf (c :: cs) || hasSub pat cs

/-- Fuel-driven worker for `replaceAll`; the fuel is the length of the
remaining text, which bounds the number of recursion steps. -/
def replaceAllGo (pat rep : Text) : Nat → Text → Text
  | 0, l => l
  | _ + 1, [] => []
  | fuel + 1, c :: cs =>
    if pat ≠ [] ∧ pat.isPrefixOf (c :: cs) = true then
      rep ++ replaceAllGo pat rep fuel (List.drop pat.length (c :: cs))
    else
      c :: replaceAllGo pat rep fuel cs

/-- Python `l.replace(pat, rep)`: left-to-right, non-overlapping. -/
def replaceAll (pat rep l : Text) : Text :=
  replaceAllGo pat rep l.length l

/-- Decimal digit character, as produced by Python `str(int)`. -/
def digitChar (n : Nat) : Char :=
  if n = 0 then '0' else if n = 1 then '1' else if n = 2 then '2'
  else if n = 3 then '3' else if n = 4 then '4' else if n = 5 then '5'
  else if n = 6 then '6' else if n = 7 then '7' else if n = 8 then '8' else '9'

def natCharsGo : Nat → Nat → Text
  | 0, _ => []
  | fuel + 1, n =>
    if n < 10 then [digitChar n]
    else natCharsGo fuel (n / 10) ++ [digitChar (n % 10)]

/-- Decimal representation of a natural number, Python `str(n)`. -/
def natChars (n : Nat) : Text :=
  natCharsGo (n + 1) n

/-- The file-wide marker `'timeout: Timeout(Duration(seconds:'` checked at the
top of both `process_file_simple` and `process_file`. -/
def markerTok : Text := "timeout: Timeout(Duration(seconds:".data

/-- The closing token `'});'` searched for on candidate closing lines. -/
def closingTok : Text := "\x7d);".data

/-- The per-line guard token `'timeout:'`. -/
def timeoutColonTok : Text := "timeout:".data

/-- The per-line guard token `'Timeout('`. -/
def timeoutCallTok : Text := "Timeout(".data

def testTok : Text := "test".data

def asyncTok : Text := "async".data

def injHead : Text := "\x7d, timeout: Timeout(Duration(seconds: ".data

def injTail : Text := ")));".data

/-- The replacement text `'}, timeout: Timeout(Duration(seconds: {t})));'`
substituted for `'});'` by both rewriters. -/
def injStr (t : Nat) : Text := injHead ++ natChars t ++ injTail

/-- The text `'seconds: {t}'`, used to state which duration was injected. -/
def secTok (t : Nat) : Text := "seconds: ".data ++ natChars t

/-- Python regex `\s` (ASCII whitespace as it occurs in source text). -/
def isWs (c : Char) : Bool :=
  c = ' ' || c = '\t' || c = '\n' || c = '\r' || c = '\x0b' || c = '\x0c'

def skipWs : Text → Text
  | [] => []
  | c :: cs => if isWs c then skipWs cs else c :: cs

/-- Scan `[^)]+\)`: consume at least one character other than `')'`, then a
`')'`, returning the rest; `none` when the text ends first or the first
character is already `')'`. -/
def afterParen : Text → Nat → Option Text
  | [], _ => none
  | c :: cs, n => if c = ')' then (if 0 < n then some cs else none) else afterParen cs (n + 1)

/-- Does `test\s*\([^)]+\)\s*async` (and with `needBrace`, additionally
`\s*\{`) match starting exactly at the head of `l`? -/
def matchAsyncAt (needBrace : Bool) (l : Text) : Bool :=
  if testTok.isPrefixOf l then
    match skipWs (l.drop 4) with
    | '(' :: r2 =>
      match afterParen r2 0 with
      | some r3 =>
        if asyncTok.isPrefixOf (skipWs r3) then
          if needBrace then
            match skipWs ((skipWs r3).drop 5) with
            | '\x7b' :: _ => true
            | _ => false
          else true
        else false
      | none => false
    | _ => false
  else false

/-- Python `re.search` of the async-test pattern over `l`. -/
def searchAsync (needBrace : Bool) : Text → Bool
  | [] => false
  | c :: cs => matchAsyncAt needBrace (c :: cs) || searchAsync needBrace cs

/-- Condition on a candidate closing line in `process_file_simple`:
`'});' in line and 'timeout:' not in line and 'Timeout(' not in line`. -/
def closingNoTimeout (l : Text) : Bool :=
  hasSub closingTok l && !(hasSub timeoutColonTok l) && !(hasSub timeoutCallTok l)

/-- The 50-line lookback of `process_file_simple`:
`any(re.search(pattern, lines[j]) for j in range(max(0, i - 50), i))`. -/
def hasAsyncAbove (lines : List Text) (i : Nat) : Bool :=
  (List.range i).any fun j => decide (i ≤ j + 50) && searchAsync false (lines.getD j [])

/-- The descending per-line loop of `process_file_simple`
(`for i in range(len(lines) - 1, -1, -1)`), processing indices
`n-1, n-2, ..., 0` and mutating the list in place. -/
def simpleLoop (t : Nat) : List Text → Bool → Nat → List Text × Bool
  | lines, m, 0 => (lines, m)
  | lines, m, i + 1 =>
    if closingNoTimeout (lines.getD i []) = true ∧ hasAsyncAbove lines i = true then
      simpleLoop t (lines.set i (replaceAll closingTok (injStr t) (lines.getD i []))) true i
    else
      simpleLoop t lines m i

def rewriteLines (t : Nat) (content : Text) : List Text × Bool :=
  simpleLoop t (splitNl content) false (splitNl content).length

/-- Embedding of `process_file_simple` of `tool/add_all_timeouts.py` as a pure text
transformer: returns the resulting file text and whether the file was
modified (the function writes to disk exactly when the flag is true,
and leaves the file untouched otherwise). -/
def process_file_simple (t : Nat) (content : Text) : Text × Bool :=
  if hasSub markerTok content = true then (content, false)
  else if searchAsync true content = false then (content, false)
  else if (rewriteLines t content).2 = true then (joinNl (rewriteLines t content).1, true)
  else (content, false)

/-- The inner closing-brace scan of `process_file` of
`tool/add_timeouts_to_tests.py`: from `j` with running depth `count`,
walk forward while `j < len(lines) and count > 0`; on the first line where
the updated depth is `0` and which contains `'});'`, inject (guarded by the
per-line timeout test) and stop.  Fuel bounds the iteration count; it is
called with `lines.length - j` which the loop can never exceed. -/
def pfScan (t : Nat) (lines : List Text) : Nat → Int → Nat → List Text × Bool
  | _, _, 0 => (lines, false)
  | j, count, fuel + 1 =>
    if j < lines.length ∧ 0 < count then
      if count + braceDelta (lines.getD j []) = 0 ∧ hasSub closingTok (lines.getD j []) = true then
        if hasSub timeoutColonTok (lines.getD j []) = false ∧
            hasSub timeoutCallTok (lines.getD j []) = false then
          (lines.set j (replaceAll closingTok (injStr t) (lines.getD j [])), true)
        else (lines, false)
      else pfScan t lines (j + 1) (count + braceDelta (lines.getD j [])) fuel
    else (lines, false)

/-- The outer ascending loop of `process_file`
(`for i, line in enumerate(lines)`), reading the current, possibly already
mutated list. -/
def pfLoop (t : Nat) : List Text → Bool → Nat → Nat → List Text × Bool
  | lines, m, _, 0 => (lines, m)
  | lines, m, i, fuel + 1 =>
    if i < lines.length then
      if searchAsync false (lines.getD i []) = true then
        pfLoop t (pfScan t lines (i + 1) 1 (lines.length - (i + 1))).1
          (m || (pfScan t lines (i + 1) 1 (lines.length - (i + 1))).2) (i + 1) fuel
      else pfLoop t lines m (i + 1) fuel
    else (lines, m)

def pfRewrite (t : Nat) (content : Text) : List Text × Bool :=
  pfLoop t (splitNl content) false 0 (splitNl content).length

/-- Embedding of `process_file` of `tool/add_timeouts_to_tests.py` as a pure text
transformer, with the duration already selected by the caller. -/
def process_file (t : Nat) (content : Text) : Text × Bool :=
  if hasSub markerTok content = true then (content, false)
  else if searchAsync true content = false then (content, false)
  else if (pfRewrite t content).2 = true then (joinNl (pfRewrite t content).1, true)
  else (content, false)

/-- The look-ahead loop of `add_timeout_to_file` of `tool/add_all_timeouts.py`
(lines 52-55): starting after the declaration line with its brace balance,
advance while `j < len(lines) and brace_count > 0`, returning the final `j`. -/
def atfFindClose (lines : List Text) : Nat → Int → Nat → Nat
  | j, _, 0 => j
  | j, count, fuel + 1 =>
    if j < lines.length ∧ 0 < count then
      atfFindClose lines (j + 1) (count + braceDelta (lines.getD j [])) fuel
    else j

/-- Whether `add_timeout_to_file` injects a timeout for the declaration
starting on line `i` (its lines 57-66: the loop above must stop at some
`j < len(lines)` whose previous line contains `'});'` and no timeout). -/
def atfInjects (lines : List Text) (i : Nat) : Bool :=
  decide (atfFindClose lines (i + 1) (braceDelta (lines.getD i [])) (lines.length - (i + 1)) < lines.length) &&
    hasSub closingTok (lines.getD (atfFindClose lines (i + 1) (braceDelta (lines.getD i [])) (lines.length - (i + 1)) - 1) []) &&
    !(hasSub timeoutColonTok (lines.getD (atfFindClose lines (i + 1) (braceDelta (lines.getD i [])) (lines.length - (i + 1)) - 1) [])) &&
    !(hasSub timeoutCallTok (lines.getD (atfFindClose lines (i + 1) (braceDelta (lines.getD i [])) (lines.length - (i + 1)) - 1) []))

/-- Running brace depth: starting from depth `c` before line `j`, the depth
after processing `n` further lines. -/
def depthFrom (lines : List Text) : Int → Nat → Nat → Int
  | c, _, 0 => c
  | c, j, n + 1 => depthFrom lines (c + braceDelta (lines.getD j [])) (j + 1) n

/-- Constant `DEFAULT_TIMEOUT = 5` of both scripts. -/
def DEFAULT_TIMEOUT : Nat := 5

/-- Constant `NETWORK_TIMEOUT = 10` of both scripts. -/
def NETWORK_TIMEOUT : Nat := 10

def discoveryName : String := "discovery_test.dart"

def zonegroupName : String := "zonegroupstate_test.dart"

def coreName : String := "core_test.dart"

def alarmsName : String := "alarms_test.dart"

/-- Set `network_test_files` of `add_all_timeouts.main` (line 142). -/
def network_test_files : List String := [discoveryName, zonegroupName]

/-- Set `processed_files` of `add_all_timeouts.main` (line 145). -/
def processed_files : List String := [coreName, alarmsName, discoveryName]

/-- The duration chosen by `add_all_timeouts.main` for a file name
(lines 157-158). -/
def select_timeout (name : String) : Nat :=
  if name ∈ network_test_files then NETWORK_TIMEOUT else DEFAULT_TIMEOUT

/-- One iteration of the batch loop of `add_all_timeouts.main`
(lines 152-160): skip files in `processed_files` before any processing,
otherwise run `process_file_simple` with the selected duration. -/
def driveFile (name : String) (content : Text) : Text × Bool :=
  if name ∈ processed_files then (content, false)
  else process_file_simple (select_timeout name) content

/-- Per-file outcome tag (the spec's ProcessingResult). -/
inductive ProcResult where
  | modified : ProcResult
  | unchanged : ProcResult
  | skipped : ProcResult
  | err : ProcResult

/-- Wrapper of `process_file_simple` including its `try/except` boundary: a read that
raises is caught inside the function (lines 130-132) and reported as an
error outcome instead of propagating. -/
def process_file_checked (t : Nat) (r : Except String Text) : ProcResult :=
  match r with
  | Except.error _ => ProcResult.err
  | Except.ok c =>
    if (process_file_simple t c).2 = true then ProcResult.modified else ProcResult.unchanged

/-- Driver `add_all_timeouts.main`: exits with code 1 before touching any file when
the test directory is missing (lines 136-139); otherwise processes every
file in turn and completes with a per-file outcome list. -/
def main_add_all (dirExists : Bool) (files : List (String × Except String Text)) :
    Except Nat (List ProcResult) :=
  if dirExists then
    Except.ok (files.map fun f =>
      if f.1 ∈ processed_files then ProcResult.skipped
      else process_file_checked (select_timeout f.1) f.2)
  else Except.error 1

/-- The single-line declaration of the spec's concrete scenario:
`test('x', () async { doSomething(); });`. -/
def c2input : Text := "test(\x27x\x27, () async \x7b doSomething(); \x7d);".data

/-- A file whose first test block already carries a timeout and whose second
test block lacks one. -/
def cx1input : Text :=
  "test(\x27a\x27, () async \x7b\n  x();\n\x7d, timeout: Timeout(Duration(seconds: 5)));\ntest(\x27b\x27, () async \x7b\n  y();\n\x7d);".data

/-- A test whose body contains a nested callback closed by `});` on line 3;
the block itself closes on line 5. -/
def cx4input : Text :=
  "test(\x27x\x27, () async \x7b\n  foo(() \x7b\n    bar();\n  \x7d);\n  baz();\n\x7d);".data

def cx4outSimple : Text :=
  "test(\x27x\x27, () async \x7b\n  foo(() \x7b\n    bar();\n  \x7d, timeout: Timeout(Duration(seconds: 5)));\n  baz();\n\x7d, timeout: Timeout(Duration(seconds: 5)));".data

def cx4outPf : Text :=
  "test(\x27x\x27, () async \x7b\n  foo(() \x7b\n    bar();\n  \x7d);\n  baz();\n\x7d, timeout: Timeout(Duration(seconds: 5)));".data

/-- A file with no recognized test declaration. -/
def noDeclInput : Text := "void main() \x7b\x7d".data

/-- A minimal three-line async test without a timeout. -/
def smallTestInput : Text := "test(\x27a\x27, () async \x7b\n  x();\n\x7d);".data

/-- The spec's concrete already-timed-out file
`test('y', () async { ... }, timeout: Timeout(Duration(seconds: 10)));`. -/
def c8input : Text :=
  "test(\x27y\x27, () async \x7b\n  doSomething();\n\x7d, timeout: Timeout(Duration(seconds: 10)));".data

def w6line0 : Text := "test(\x27x\x27, () async \x7b".data

def w6line1 : Text := "  foo();".data

def fooName : String := "foo_test.dart"

/-- Auxiliary split of `injHead` used to locate `markerTok` inside it. -/
def d1 : Text := "\x7d, ".data

def sp1 : Text := " ".data

/-- Auxiliary split of `injHead` used to locate `secTok` inside it. -/
def d2 : Text := "\x7d, timeout: Timeout(Duration(".data

def secHead : Text := "seconds: ".data

def tcRest : Text := " Timeout(Duration(seconds:".data

/-- Some line of the list contains `s` as a substring. -/
def hasLine (s : Text) (lines : List Text) : Prop :=
  ∃ k, k < lines.length ∧ s <:+: lines.getD k []

/-- Every line of `cur` is the corresponding line of `orig`, either verbatim
or with its `'});'` occurrences replaced by the injected closing text. -/
def lineFrame (t : Nat) (orig cur : List Text) : Prop :=
  ∀ k, cur.getD k [] = orig.getD k [] ∨
    cur.getD k [] = replaceAll closingTok (injStr t) (orig.getD k [])

theorem hasSub_iff {pat l : Text} : hasSub pat l = true ↔ pat <:+: l := by
  induction l with
  | nil => simp [hasSub, List.infix_nil, List.isEmpty_iff]
  | cons c cs ih =>
    simp [hasSub, Bool.or_eq_true, List.isPrefixOf_iff_prefix, ih, List.infix_cons_iff]

theorem closingNoTimeout_spec {l : Text} (h : closingNoTimeout l = true) :
    hasSub closingTok l = true ∧ hasSub timeoutColonTok l = false ∧
      hasSub timeoutCallTok l = false := by
  simp only [closingNoTimeout, Bool.and_eq_true, Bool.not_eq_true'] at h
  exact ⟨h.1.1, h.1.2, h.2⟩

theorem replaceAllGo_of_not_sub (pat rep : Text) :
    ∀ (fuel : Nat) (l : Text), ¬ pat <:+: l → replaceAllGo pat rep fuel l = l := by
  intro fuel
  induction fuel with
  | zero => intro l _; rfl
  | succ fuel ih =>
    intro l h
    cases l with
    | nil => rfl
    | cons c cs =>
      simp only [replaceAllGo]
      rw [if_neg, ih cs fun hc => h (List.infix_cons hc)]
      intro hcond
      exact h (List.IsPrefix.isInfix (List.isPrefixOf_iff_prefix.mp hcond.2))

theorem replaceAllGo_nil_pat (rep : Text) :
    ∀ (fuel : Nat) (l : Text), replaceAllGo [] rep fuel l = l := by
  intro fuel
  induction fuel with
  | zero => intro l; rfl
  | succ fuel ih =>
    intro l
    cases l with
    | nil => rfl
    | cons c cs =>
      simp only [replaceAllGo]
      rw [if_neg fun hcond => hcond.1 rfl, ih cs]

theorem rep_sub_replaceAllGo (pat rep : Text) (hp : pat ≠ []) :
    ∀ (fuel : Nat) (l : Text), pat <:+: l → l.length ≤ fuel →
      rep <:+: replaceAllGo pat rep fuel l := by
  intro fuel
  induction fuel with
  | zero =>
    intro l hsub hlen
    have hl : l = [] := List.length_eq_zero.mp (Nat.le_zero.mp hlen)
    subst hl
    exact absurd (List.infix_nil.mp hsub) hp
  | succ fuel ih =>
    intro l hsub hlen
    cases l with
    | nil => exact absurd (List.infix_nil.mp hsub) hp
    | cons c cs =>
      simp only [replaceAllGo]
      split
      next =>
        exact ⟨[], replaceAllGo pat rep fuel (List.drop pat.length (c :: cs)), by simp⟩
      next hcond =>
        have hnp : ¬ pat <+: c :: cs := fun hpre =>
          hcond ⟨hp, List.isPrefixOf_iff_prefix.mpr hpre⟩
        have hsub' : pat <:+: cs := by
          rcases List.infix_cons_iff.mp hsub with h | h
          · exact absurd h hnp
          · exact h
        have hlen' : cs.length ≤ fuel := by
          simp only [List.length_cons] at hlen
          omega
        exact List.infix_cons (ih cs hsub' hlen')

theorem replaceAll_of_not_sub (pat rep l : Text) (h : ¬ pat <:+: l) :
    replaceAll pat rep l = l :=
  replaceAllGo_of_not_sub pat rep l.length l h

theorem rep_sub_replaceAll (pat rep l : Text) (hp : pat ≠ []) (h : pat <:+: l) :
    rep <:+: replaceAll pat rep l :=
  rep_sub_replaceAllGo pat rep hp l.length l h le_rfl

theorem rep_sub_of_replaceAll_ne (pat rep l : Text) (h : replaceAll pat rep l ≠ l) :
    rep <:+: replaceAll pat rep l := by
  by_cases hs : pat <:+: l
  · by_cases hp : pat = []
    · subst hp
      exact absurd (replaceAllGo_nil_pat rep l.length l) h
    · exact rep_sub_replaceAll pat rep l hp hs
  · exact absurd (replaceAll_of_not_sub pat rep l hs) h

theorem noNl_replaceAllGo (pat rep : Text) (hrep : '\n' ∉ rep) :
    ∀ (fuel : Nat) (l : Text), '\n' ∉ l → '\n' ∉ replaceAllGo pat rep fuel l := by
  intro fuel
  induction fuel with
  | zero => intro l h; exact h
  | succ fuel ih =>
    intro l h
    cases l with
    | nil => simp [replaceAllGo]
    | cons c cs =>
      simp only [replaceAllGo]
      split
      · intro hm
        rcases List.mem_append.mp hm with hm | hm
        · exact hrep hm
        · exact ih _ (fun hx => h (List.drop_subset _ _ hx)) hm
      · intro hm
        rcases List.mem_cons.mp hm with hm | hm
        · exact h (hm ▸ List.mem_cons_self c cs)
        · exact ih cs (fun hx => h (List.mem_cons_of_mem c hx)) hm

theorem digitChar_ne_nl (n : Nat) : digitChar n ≠ '\n' := by
  unfold digitChar
  split_ifs <;> decide

theorem noNl_natCharsGo : ∀ (fuel n : Nat), '\n' ∉ natCharsGo fuel n := by
  intro fuel
  induction fuel with
  | zero => intro n; simp [natCharsGo]
  | succ fuel ih =>
    intro n
    simp only [natCharsGo]
    split
    · intro hm
      simp only [List.mem_singleton] at hm
      exact digitChar_ne_nl n hm.symm
    · intro hm
      rcases List.mem_append.mp hm with hm | hm
      · exact ih _ hm
      · simp only [List.mem_singleton] at hm
        exact digitChar_ne_nl _ hm.symm

theorem noNl_injStr (t : Nat) : '\n' ∉ injStr t := by
  intro hm
  simp only [injStr] at hm
  rcases List.mem_append.mp hm with hm | hm
  · rcases List.mem_append.mp hm with hm | hm
    · revert hm; decide
    · exact noNl_natCharsGo (t + 1) t hm
  · revert hm; decide

theorem markerTok_sub_injStr (t : Nat) : markerTok <:+: injStr t := by
  refine ⟨d1, sp1 ++ natChars t ++ injTail, ?_⟩
  have h : injHead = d1 ++ markerTok ++ sp1 := by decide
  rw [injStr, h]
  simp [List.append_assoc]

theorem timeoutColonTok_sub_injStr (t : Nat) : timeoutColonTok <:+: injStr t := by
  have h : timeoutColonTok <:+: markerTok := ⟨[], tcRest, by decide⟩
  exact h.trans (markerTok_sub_injStr t)

theorem secTok_sub_injStr (t : Nat) : secTok t <:+: injStr t := by
  refine ⟨d2, injTail, ?_⟩
  have h : injHead = d2 ++ secHead := by decide
  rw [injStr, h, secTok]
  simp [secHead, List.append_assoc]

theorem getD_set_self (l : List Text) (j : Nat) (a : Text) (h : j < l.length) :
    (l.set j a).getD j [] = a := by
  induction l generalizing j with
  | nil => simp at h
  | cons x xs ih =>
    cases j with
    | zero => rfl
    | succ j =>
      simp only [List.set, List.getD_cons_succ]
      exact ih j (by simpa using h)

theorem getD_set_ne (l : List Text) (j k : Nat) (a : Text) (h : j ≠ k) :
    (l.set j a).getD k [] = l.getD k [] := by
  induction l generalizing j k with
  | nil => simp [List.set]
  | cons x xs ih =>
    cases j with
    | zero =>
      cases k with
      | zero => exact absurd rfl h
      | succ k => simp [List.set, List.getD_cons_succ]
    | succ j =>
      cases k with
      | zero => simp [List.set, List.getD_cons_zero]
      | succ k =>
        simp only [List.set, List.getD_cons_succ]
        exact ih j k fun hh => h (by rw [hh])

theorem getD_mem (lines : List Text) (k : Nat) (hk : k < lines.length) :
    lines.getD k [] ∈ lines := by
  rw [List.getD_eq_getElem _ _ hk]
  exact List.getElem_mem hk

theorem infix_joinNl {s l : Text} : ∀ {ls : List Text}, l ∈ ls → s <:+: l → s <:+: joinNl ls := by
  intro ls
  induction ls with
  | nil => intro h; simp at h
  | cons a as ih =>
    intro hmem hsub
    cases as with
    | nil =>
      have : l = a := by simpa using hmem
      exact this ▸ hsub
    | cons b bs =>
      rcases List.mem_cons.mp hmem with h | h
      · obtain ⟨u, v, huv⟩ := h ▸ hsub
        refine ⟨u, v ++ '\n' :: joinNl (b :: bs), ?_⟩
        show u ++ s ++ (v ++ '\n' :: joinNl (b :: bs)) = a ++ '\n' :: joinNl (b :: bs)
        rw [show a = u ++ s ++ v from huv.symm]
        simp
      · obtain ⟨u, v, huv⟩ := ih h hsub
        refine ⟨a ++ '\n' :: u, v, ?_⟩
        show (a ++ '\n' :: u) ++ s ++ v = a ++ '\n' :: joinNl (b :: bs)
        rw [← huv]
        simp

theorem splitNl_ne_nil (c : Text) : splitNl c ≠ [] := by
  induction c with
  | nil => simp [splitNl]
  | cons a as ih =>
    simp only [splitNl]
    split
    · simp
    · cases h : splitNl as with
      | nil => simp
      | cons l ls => simp

theorem mem_splitNl_noNl {c : Text} : ∀ {l : Text}, l ∈ splitNl c → '\n' ∉ l := by
  induction c with
  | nil =>
    intro l hl
    simp only [splitNl, List.mem_singleton] at hl
    subst hl
    simp
  | cons a as ih =>
    intro l hl
    by_cases ha : a = '\n'
    · rw [splitNl, if_pos ha] at hl
      rcases List.mem_cons.mp hl with h | h
      · subst h; simp
      · exact ih h
    · rw [splitNl, if_neg ha] at hl
      cases h : splitNl as with
      | nil => exact absurd h (splitNl_ne_nil as)
      | cons b bs =>
        rw [h] at hl
        rcases List.mem_cons.mp hl with h1 | h1
        · subst h1
          intro hm
          rcases List.mem_cons.mp hm with h2 | h2
          · exact ha h2.symm
          · exact ih (h ▸ List.mem_cons_self b bs) h2
        · exact ih (h ▸ List.mem_cons_of_mem b h1)

theorem splitNl_of_noNl {a : Text} (h : '\n' ∉ a) : splitNl a = [a] := by
  induction a with
  | nil => rfl
  | cons x xs ih =>
    have hx : x ≠ '\n' := fun hh => h (hh ▸ List.mem_cons_self x xs)
    have hxs : '\n' ∉ xs := fun hm => h (List.mem_cons_of_mem x hm)
    rw [splitNl, if_neg hx, ih hxs]

theorem splitNl_append {a : Text} (h : '\n' ∉ a) (r : Text) :
    splitNl (a ++ '\n' :: r) = a :: splitNl r := by
  induction a with
  | nil => simp [splitNl]
  | cons x xs ih =>
    have hx : x ≠ '\n' := fun hh => h (hh ▸ List.mem_cons_self x xs)
    have hxs : '\n' ∉ xs := fun hm => h (List.mem_cons_of_mem x hm)
    rw [List.cons_append, splitNl, if_neg hx, ih hxs]

theorem splitNl_joinNl : ∀ {ls : List Text}, (∀ l ∈ ls, '\n' ∉ l) → ls ≠ [] →
    splitNl (joinNl ls) = ls := by
  intro ls
  induction ls with
  | nil => intro _ h; exact absurd rfl h
  | cons a as ih =>
    intro hno _
    cases as with
    | nil => exact splitNl_of_noNl (hno a (List.mem_cons_self a []))
    | cons b bs =>
      rw [show joinNl (a :: b :: bs) = a ++ '\n' :: joinNl (b :: bs) from rfl,
        splitNl_append (hno a (List.mem_cons_self a (b :: bs))),
        ih (fun l hl => hno l (List.mem_cons_of_mem a hl)) (by simp)]

theorem hasLine_set_closing (t : Nat) (s : Text) (hs : s <:+: injStr t)
    (cur : List Text) (j : Nat) (hc : hasSub closingTok (cur.getD j []) = true) :
    hasLine s (cur.set j (replaceAll closingTok (injStr t) (cur.getD j []))) := by
  have hinf : closingTok <:+: cur.getD j [] := hasSub_iff.mp hc
  have hjlen : j < cur.length := by
    by_contra hge
    rw [List.getD_eq_default _ _ (le_of_not_lt hge)] at hinf
    exact absurd (List.infix_nil.mp hinf) (by decide)
  have hrep : injStr t <:+: replaceAll closingTok (injStr t) (cur.getD j []) :=
    rep_sub_replaceAll _ _ _ (by decide) hinf
  refine ⟨j, ?_, ?_⟩
  · simpa [List.length_set] using hjlen
  · rw [getD_set_self _ _ _ hjlen]
    exact hs.trans hrep

theorem lineFrame_set (t : Nat) (orig cur : List Text) (j : Nat)
    (hg : hasSub timeoutColonTok (cur.getD j []) = false)
    (hf : lineFrame t orig cur) :
    lineFrame t orig (cur.set j (replaceAll closingTok (injStr t) (cur.getD j []))) := by
  intro k
  by_cases hjk : j = k
  · subst hjk
    by_cases hlen : j < cur.length
    · rw [getD_set_self _ _ _ hlen]
      rcases hf j with h | h
      · rw [h]
        right
        rfl
      · by_cases he : replaceAll closingTok (injStr t) (orig.getD j []) = orig.getD j []
        · right
          rw [h, he]
          exact he
        · exfalso
          have h1 : injStr t <:+: replaceAll closingTok (injStr t) (orig.getD j []) :=
            rep_sub_of_replaceAll_ne _ _ _ he
          have h2 : timeoutColonTok <:+: cur.getD j [] := by
            rw [h]
            exact (timeoutColonTok_sub_injStr t).trans h1
          rw [hasSub_iff.mpr h2] at hg
          simp at hg
    · rw [List.set_eq_of_length_le (le_of_not_lt hlen)]
      exact hf j
  · rw [getD_set_ne _ _ _ _ hjk]
    exact hf k

theorem simpleLoop_length (t : Nat) : ∀ (n : Nat) (lines : List Text) (m : Bool),
    ((simpleLoop t lines m n).1).length = lines.length := by
  intro n
  induction n with
  | zero => intro lines m; rfl
  | succ i ih =>
    intro lines m
    simp only [simpleLoop]
    split
    · rw [ih, List.length_set]
    · exact ih lines m

theorem simpleLoop_frame (t : Nat) (orig : List Text) :
    ∀ (n : Nat) (lines : List Text) (m : Bool), lineFrame t orig lines →
      lineFrame t orig (simpleLoop t lines m n).1 := by
  intro n
  induction n with
  | zero => intro lines m h; exact h
  | succ i ih =>
    intro lines m h
    simp only [simpleLoop]
    split
    next hg =>
      exact ih _ _ (lineFrame_set t orig lines i (closingNoTimeout_spec hg.1).2.1 h)
    next => exact ih lines m h

theorem simpleLoop_hasLine (t : Nat) (s : Text) (hs : s <:+: injStr t) :
    ∀ (n : Nat) (lines : List Text) (m : Bool), (m = true → hasLine s lines) →
      (simpleLoop t lines m n).2 = true → hasLine s (simpleLoop t lines m n).1 := by
  intro n
  induction n with
  | zero => intro lines m hm h; exact hm h
  | succ i ih =>
    intro lines m hm
    simp only [simpleLoop]
    split
    next hg =>
      exact ih _ true fun _ =>
        hasLine_set_closing t s hs lines i (closingNoTimeout_spec hg.1).1
    next => exact ih lines m hm

theorem rewriteLines_length (t : Nat) (c : Text) :
    ((rewriteLines t c).1).length = (splitNl c).length :=
  simpleLoop_length t _ _ _

theorem rewriteLines_frame (t : Nat) (c : Text) :
    lineFrame t (splitNl c) (rewriteLines t c).1 :=
  simpleLoop_frame t _ _ _ _ fun _ => Or.inl rfl

theorem rewriteLines_hasLine (t : Nat) (c : Text) (s : Text) (hs : s <:+: injStr t)
    (h : (rewriteLines t c).2 = true) : hasLine s (rewriteLines t c).1 :=
  simpleLoop_hasLine t s hs _ _ _ (by simp) h

theorem pfScan_false_eq (t : Nat) (lines : List Text) :
    ∀ (fuel j : Nat) (c : Int), (pfScan t lines j c fuel).2 = false →
      (pfScan t lines j c fuel).1 = lines := by
  intro fuel
  induction fuel with
  | zero => intro j c _; rfl
  | succ fuel ih =>
    intro j c
    simp only [pfScan]
    split
    next =>
      split
      next =>
        split
        next => intro h; simp at h
        next => intro _; rfl
      next => exact ih _ _
    next => intro _; rfl

theorem pfScan_length (t : Nat) (lines : List Text) :
    ∀ (fuel j : Nat) (c : Int), ((pfScan t lines j c fuel).1).length = lines.length := by
  intro fuel
  induction fuel with
  | zero => intro j c; rfl
  | succ fuel ih =>
    intro j c
    simp only [pfScan]
    split
    next =>
      split
      next =>
        split
        next => exact List.length_set lines _ _
        next => rfl
      next => exact ih _ _
    next => rfl

theorem pfScan_frame (t : Nat) (orig lines : List Text) (hf : lineFrame t orig lines) :
    ∀ (fuel j : Nat) (c : Int), lineFrame t orig (pfScan t lines j c fuel).1 := by
  intro fuel
  induction fuel with
  | zero => intro j c; exact hf
  | succ fuel ih =>
    intro j c
    simp only [pfScan]
    split
    next =>
      split
      next =>
        split
        next hg => exact lineFrame_set t orig lines _ hg.1 hf
        next => exact hf
      next => exact ih _ _
    next => exact hf

theorem pfScan_hasLine (t : Nat) (s : Text) (hs : s <:+: injStr t) (lines : List Text) :
    ∀ (fuel j : Nat) (c : Int), (pfScan t lines j c fuel).2 = true →
      hasLine s (pfScan t lines j c fuel).1 := by
  intro fuel
  induction fuel with
  | zero => intro j c h; simp [pfScan] at h
  | succ fuel ih =>
    intro j c
    simp only [pfScan]
    split
    next =>
      split
      next hcond =>
        split
        next => intro _; exact hasLine_set_closing t s hs lines _ hcond.2
        next => intro h; simp at h
      next => exact ih _ _
    next => intro h; simp at h

theorem pfLoop_length (t : Nat) : ∀ (fuel : Nat) (lines : List Text) (m : Bool) (i : Nat),
    ((pfLoop t lines m i fuel).1).length = lines.length := by
  intro fuel
  induction fuel with
  | zero => intro lines m i; rfl
  | succ fuel ih =>
    intro lines m i
    simp only [pfLoop]
    split
    · split
      · rw [ih, pfScan_length]
      · exact ih lines m (i + 1)
    · rfl

theorem pfLoop_frame (t : Nat) (orig : List Text) :
    ∀ (fuel : Nat) (lines : List Text) (m : Bool) (i : Nat), lineFrame t orig lines →
      lineFrame t orig (pfLoop t lines m i fuel).1 := by
  intro fuel
  induction fuel with
  | zero => intro lines m i h; exact h
  | succ fuel ih =>
    intro lines m i h
    simp only [pfLoop]
    split
    · split
      · exact ih _ _ _ (pfScan_frame t orig lines h _ _ _)
      · exact ih lines m (i + 1) h
    · exact h

theorem pfLoop_hasLine (t : Nat) (s : Text) (hs : s <:+: injStr t) :
    ∀ (fuel : Nat) (lines : List Text) (m : Bool) (i : Nat),
      (m = true → hasLine s lines) → (pfLoop t lines m i fuel).2 = true →
      hasLine s (pfLoop t lines m i fuel).1 := by
  intro fuel
  induction fuel with
  | zero => intro lines m i hm h; exact hm h
  | succ fuel ih =>
    intro lines m i hm
    simp only [pfLoop]
    split
    · split
      · refine ih _ _ _ ?_
        intro hor
        cases hp : (pfScan t lines (i + 1) 1 (lines.length - (i + 1))).2 with
        | true => exact pfScan_hasLine t s hs lines _ _ _ hp
        | false =>
          rw [pfScan_false_eq t lines _ _ _ hp]
          apply hm
          rw [hp] at hor
          simpa using hor
      · exact ih lines m (i + 1) hm
    · exact fun h => hm h

theorem pfRewrite_length (t : Nat) (c : Text) :
    ((pfRewrite t c).1).length = (splitNl c).length :=
  pfLoop_length t _ _ _ _

theorem pfRewrite_frame (t : Nat) (c : Text) :
    lineFrame t (splitNl c) (pfRewrite t c).1 :=
  pfLoop_frame t _ _ _ _ _ fun _ => Or.inl rfl

theorem pfRewrite_hasLine (t : Nat) (c : Text) (s : Text) (hs : s <:+: injStr t)
    (h : (pfRewrite t c).2 = true) : hasLine s (pfRewrite t c).1 :=
  pfLoop_hasLine t s hs _ _ _ _ (by simp) h

theorem noNl_of_frame (t : Nat) (orig cur : List Text) (hf : lineFrame t orig cur)
    (hlen : cur.length = orig.length) (ho : ∀ l ∈ orig, '\n' ∉ l) :
    ∀ l ∈ cur, '\n' ∉ l := by
  intro l hl
  obtain ⟨k, hk, hkl⟩ := List.getElem_of_mem hl
  have hgd : cur.getD k [] = l := by rw [List.getD_eq_getElem _ _ hk, hkl]
  have hko : k < orig.length := hlen ▸ hk
  rcases hf k with h | h
  · rw [← hgd, h]
    exact ho _ (getD_mem orig k hko)
  · rw [← hgd, h]
    exact noNl_replaceAllGo closingTok (injStr t) (noNl_injStr t) _ _
      (ho _ (getD_mem orig k hko))

theorem pfScan_stays_pos (t : Nat) (lines : List Text) :
    ∀ (fuel j : Nat) (c : Int),
      (∀ n, j + n < lines.length → 0 < depthFrom lines c j (n + 1)) →
      pfScan t lines j c fuel = (lines, false) := by
  intro fuel
  induction fuel with
  | zero => intro j c _; rfl
  | succ fuel ih =>
    intro j c h
    simp only [pfScan]
    split
    next hj =>
      have hpos : 0 < c + braceDelta (lines.getD j []) := by
        have := h 0 (by omega)
        simpa [depthFrom] using this
      rw [if_neg fun hc => by omega]
      apply ih
      intro n hn
      have := h (n + 1) (by omega)
      simpa [depthFrom] using this
    next => rfl

theorem atfFindClose_ge (lines : List Text) :
    ∀ (fuel j : Nat) (c : Int), 0 < c →
      (∀ n, j + n < lines.length → 0 < depthFrom lines c j (n + 1)) →
      lines.length ≤ j + fuel → lines.length ≤ atfFindClose lines j c fuel := by
  intro fuel
  induction fuel with
  | zero => intro j c _ _ hle; simpa using hle
  | succ fuel ih =>
    intro j c hc h hle
    simp only [atfFindClose]
    split
    next hj =>
      refine ih _ _ ?_ ?_ ?_
      · have := h 0 (by omega)
        simpa [depthFrom] using this
      · intro n hn
        have := h (n + 1) (by omega)
        simpa [depthFrom] using this
      · omega
    next hj =>
      have hge : ¬ j < lines.length := fun hlt => hj ⟨hlt, hc⟩
      omega

theorem pfs_cases (t : Nat) (c : Text) :
    process_file_simple t c = (c, false) ∨
    ((rewriteLines t c).2 = true ∧
      process_file_simple t c = (joinNl (rewriteLines t c).1, true) ∧
      hasSub markerTok c = false ∧ searchAsync true c = true) := by
  unfold process_file_simple
  split
  next => exact Or.inl rfl
  next h =>
    split
    next => exact Or.inl rfl
    next h2 =>
      split
      next h3 =>
        refine Or.inr ⟨h3, rfl, ?_, ?_⟩
        · simpa using h
        · simpa using h2
      next => exact Or.inl rfl

theorem pf_cases (t : Nat) (c : Text) :
    process_file t c = (c, false) ∨
    ((pfRewrite t c).2 = true ∧
      process_file t c = (joinNl (pfRewrite t c).1, true) ∧
      hasSub markerTok c = false ∧ searchAsync true c = true) := by
  unfold process_file
  split
  next => exact Or.inl rfl
  next h =>
    split
    next => exact Or.inl rfl
    next h2 =>
      split
      next h3 =>
        refine Or.inr ⟨h3, rfl, ?_, ?_⟩
        · simpa using h
        · simpa using h2
      next => exact Or.inl rfl

theorem pfs_marker (t : Nat) (c : Text) (h : hasSub markerTok c = true) :
    process_file_simple t c = (c, false) := by
  unfold process_file_simple
  rw [if_pos h]

theorem pf_marker (t : Nat) (c : Text) (h : hasSub markerTok c = true) :
    process_file t c = (c, false) := by
  unfold process_file
  rw [if_pos h]

theorem pfs_nodecl (t : Nat) (c : Text) (h : searchAsync true c = false) :
    process_file_simple t c = (c, false) := by
  by_cases hm : hasSub markerTok c = true
  · exact pfs_marker t c hm
  · unfold process_file_simple
    rw [if_neg hm, if_pos h]

theorem pf_nodecl (t : Nat) (c : Text) (h : searchAsync true c = false) :
    process_file t c = (c, false) := by
  by_cases hm : hasSub markerTok c = true
  · exact pf_marker t c hm
  · unfold process_file
    rw [if_neg hm, if_pos h]

theorem pfs_snd_false (t : Nat) (c : Text) (h : (process_file_simple t c).2 = false) :
    process_file_simple t c = (c, false) := by
  rcases pfs_cases t c with hc | ⟨_, h1, _, _⟩
  · exact hc
  · rw [h1] at h
    simp at h

theorem pf_snd_false (t : Nat) (c : Text) (h : (process_file t c).2 = false) :
    process_file t c = (c, false) := by
  rcases pf_cases t c with hc | ⟨_, h1, _, _⟩
  · exact hc
  · rw [h1] at h
    simp at h

theorem pfs_out_has (t : Nat) (c : Text) (s : Text) (hs : s <:+: injStr t)
    (h : (process_file_simple t c).2 = true) : s <:+: (process_file_simple t c).1 := by
  rcases pfs_cases t c with hc | ⟨hrw, h1, _, _⟩
  · rw [hc] at h
    simp at h
  · rw [h1]
    show s <:+: joinNl (rewriteLines t c).1
    obtain ⟨k, hk, hinf⟩ := rewriteLines_hasLine t c s hs hrw
    exact infix_joinNl (getD_mem _ _ hk) hinf

theorem pf_out_has (t : Nat) (c : Text) (s : Text) (hs : s <:+: injStr t)
    (h : (process_file t c).2 = true) : s <:+: (process_file t c).1 := by
  rcases pf_cases t c with hc | ⟨hrw, h1, _, _⟩
  · rw [hc] at h
    simp at h
  · rw [h1]
    show s <:+: joinNl (pfRewrite t c).1
    obtain ⟨k, hk, hinf⟩ := pfRewrite_hasLine t c s hs hrw
    exact infix_joinNl (getD_mem _ _ hk) hinf

theorem pfs_ne_of_true (t : Nat) (c : Text) (h : (process_file_simple t c).2 = true) :
    (process_file_simple t c).1 ≠ c := by
  rcases pfs_cases t c with hc | ⟨_, _, hm, _⟩
  · rw [hc] at h
    simp at h
  · intro heq
    have hmk : markerTok <:+: c := heq ▸ pfs_out_has t c markerTok (markerTok_sub_injStr t) h
    rw [hasSub_iff.mpr hmk] at hm
    simp at hm

theorem pf_ne_of_true (t : Nat) (c : Text) (h : (process_file t c).2 = true) :
    (process_file t c).1 ≠ c := by
  rcases pf_cases t c with hc | ⟨_, _, hm, _⟩
  · rw [hc] at h
    simp at h
  · intro heq
    have hmk : markerTok <:+: c := heq ▸ pf_out_has t c markerTok (markerTok_sub_injStr t) h
    rw [hasSub_iff.mpr hmk] at hm
    simp at hm

theorem pfs_line_cases (t : Nat) (c : Text) (i : Nat) :
    (splitNl (process_file_simple t c).1).getD i [] = (splitNl c).getD i [] ∨
    (splitNl (process_file_simple t c).1).getD i [] =
      replaceAll closingTok (injStr t) ((splitNl c).getD i []) := by
  rcases pfs_cases t c with hc | ⟨_, h1, _, _⟩
  · left
    rw [hc]
  · have hout : (process_file_simple t c).1 = joinNl (rewriteLines t c).1 := by rw [h1]
    rw [hout]
    have hno : ∀ l ∈ (rewriteLines t c).1, '\n' ∉ l :=
      noNl_of_frame t (splitNl c) _ (rewriteLines_frame t c) (rewriteLines_length t c)
        fun _ hl => mem_splitNl_noNl hl
    have hnn : (rewriteLines t c).1 ≠ [] := by
      intro hnil
      have hl := rewriteLines_length t c
      rw [hnil] at hl
      exact splitNl_ne_nil c (List.length_eq_zero.mp hl.symm)
    rw [splitNl_joinNl hno hnn]
    exact rewriteLines_frame t c i

theorem pf_line_cases (t : Nat) (c : Text) (i : Nat) :
    (splitNl (process_file t c).1).getD i [] = (splitNl c).getD i [] ∨
    (splitNl (process_file t c).1).getD i [] =
      replaceAll closingTok (injStr t) ((splitNl c).getD i []) := by
  rcases pf_cases t c with hc | ⟨_, h1, _, _⟩
  · left
    rw [hc]
  · have hout : (process_file t c).1 = joinNl (pfRewrite t c).1 := by rw [h1]
    rw [hout]
    have hno : ∀ l ∈ (pfRewrite t c).1, '\n' ∉ l :=
      noNl_of_frame t (splitNl c) _ (pfRewrite_frame t c) (pfRewrite_length t c)
        fun _ hl => mem_splitNl_noNl hl
    have hnn : (pfRewrite t c).1 ≠ [] := by
      intro hnil
      have hl := pfRewrite_length t c
      rw [hnil] at hl
      exact splitNl_ne_nil c (List.length_eq_zero.mp hl.symm)
    rw [splitNl_joinNl hno hnn]
    exact pfRewrite_frame t c i

/-- C1 counterexample: on a file whose first test block already carries a
timeout and whose second block lacks one (`cx1input`), both rewriters leave
the whole file unchanged — the second block is not injected into — because
the marker check at the top of each rewriter scans the entire file text, not
the block span.  The last conjunct records that the second block (lines 3-5)
indeed contains no timeout. -/
theorem C1_locality_counterexample :
    process_file_simple 5 cx1input = (cx1input, false) ∧
    process_file 5 cx1input = (cx1input, false) ∧
    hasSub markerTok cx1input = true ∧
    hasSub timeoutColonTok (joinNl ((splitNl cx1input).drop 3)) = false := by
  decide

/-- C1 amended: the injection decision is not local to a block.  Whenever the
recognized timeout marker occurs anywhere in the file, both rewriters return
the file unchanged, so a timeout present in one block suppresses injection
into every other block of the same file; only in marker-free files is the
per-block decision made. -/
theorem C1_amended_marker_suppresses_whole_file : ∀ (t : Nat) (c : Text),
    hasSub markerTok c = true →
    process_file_simple t c = (c, false) ∧ process_file t c = (c, false) :=
  fun t c h => ⟨pfs_marker t c h, pf_marker t c h⟩

theorem C1_amended_marker_suppresses_whole_file_witness :
    process_file_simple 7 cx1input = (cx1input, false) ∧
    process_file 7 cx1input = (cx1input, false) :=
  C1_amended_marker_suppresses_whole_file 7 cx1input (by decide)

/-- C2: for the file containing exactly
`test('x', () async { doSomething(); });` with the default duration 5, the
claim expects the injected output and a MODIFIED result, but both rewriters
recognize the declaration (first conjunct) and still return the file
unchanged with a not-modified result: their per-line heuristics only inject
on a closing line strictly below the declaration line, so a single-line test
is never injected into. -/
theorem C2_single_line_scenario :
    searchAsync true c2input = true ∧
    process_file_simple DEFAULT_TIMEOUT c2input = (c2input, false) ∧
    process_file DEFAULT_TIMEOUT c2input = (c2input, false) := by
  decide

/-- C3: both rewriters are idempotent end-to-end.  For every input text,
running the rewriter again on the output of the first run reports the file
as unchanged and returns the text byte-for-byte identical: a modified first
run leaves the recognized marker in its output, which makes the second run
take the file-wide early exit, and an unmodified first run returns its input
unchanged. -/
theorem C3_rewriter_idempotent : ∀ (t : Nat) (c : Text),
    process_file_simple t (process_file_simple t c).1 = ((process_file_simple t c).1, false) ∧
    process_file t (process_file t c).1 = ((process_file t c).1, false) := by
  intro t c
  constructor
  · cases hb : (process_file_simple t c).2 with
    | false =>
      have h := pfs_snd_false t c hb
      rw [h]
      exact h
    | true =>
      exact pfs_marker t _ (hasSub_iff.mpr
        (pfs_out_has t c markerTok (markerTok_sub_injStr t) hb))
  · cases hb : (process_file t c).2 with
    | false =>
      have h := pf_snd_false t c hb
      rw [h]
      exact h
    | true =>
      exact pf_marker t _ (hasSub_iff.mpr
        (pf_out_has t c markerTok (markerTok_sub_injStr t) hb))

/-- C4 counterexample: on `cx4input` the block opened on line 0 closes on
line 5 (the brace-scanning rewriter `process_file` alters exactly that
line), but `process_file_simple` also rewrites line 3 — the `});` closing a
nested callback strictly inside the block body — so injection is not
confined to the block's closing boundary.  The `depthFrom` conjunct records
that the brace depth after lines 0-3 is still positive, i.e. line 3 lies
strictly inside the block. -/
theorem C4_injection_counterexample :
    process_file_simple 5 cx4input = (cx4outSimple, true) ∧
    (splitNl cx4outSimple).getD 3 [] ≠ (splitNl cx4input).getD 3 [] ∧
    process_file 5 cx4input = (cx4outPf, true) ∧
    (splitNl cx4outPf).getD 3 [] = (splitNl cx4input).getD 3 [] ∧
    depthFrom (splitNl cx4input) 0 0 4 = 1 := by
  decide

/-- C4 amended: injection is a per-line text substitution.  For every input
and every line index, the corresponding output line of either rewriter is
the input line either verbatim or with its `});` occurrences replaced by
the injected closing text — but the altered line need not be the block's
closing boundary: in `process_file_simple` any `});` line within 50 lines
below an async declaration may be rewritten, including lines strictly
inside the block body, as the counterexample shows. -/
theorem C4_amended_per_line_substitution : ∀ (t : Nat) (c : Text) (i : Nat),
    ((splitNl (process_file_simple t c).1).getD i [] = (splitNl c).getD i [] ∨
      (splitNl (process_file_simple t c).1).getD i [] =
        replaceAll closingTok (injStr t) ((splitNl c).getD i [])) ∧
    ((splitNl (process_file t c).1).getD i [] = (splitNl c).getD i [] ∨
      (splitNl (process_file t c).1).getD i [] =
        replaceAll closingTok (injStr t) ((splitNl c).getD i [])) :=
  fun t c i => ⟨pfs_line_cases t c i, pf_line_cases t c i⟩

/-- C5: a file with zero recognized test declarations is returned
byte-identical with a not-modified result (nothing is written), and in
general each rewriter's modified flag — which alone triggers the disk
write — is `false` exactly when the output text equals the input: an
unmodified run returns the input itself, and a modified run produces output
that differs from the input. -/
theorem C5_no_spurious_write : ∀ (t : Nat) (c : Text),
    (searchAsync true c = false →
      process_file_simple t c = (c, false) ∧ process_file t c = (c, false)) ∧
    ((process_file_simple t c).2 = false → (process_file_simple t c).1 = c) ∧
    ((process_file_simple t c).2 = true → (process_file_simple t c).1 ≠ c) ∧
    ((process_file t c).2 = false → (process_file t c).1 = c) ∧
    ((process_file t c).2 = true → (process_file t c).1 ≠ c) := by
  intro t c
  refine ⟨fun h => ⟨pfs_nodecl t c h, pf_nodecl t c h⟩, fun h => ?_,
    pfs_ne_of_true t c, fun h => ?_, pf_ne_of_true t c⟩
  · rw [pfs_snd_false t c h]
  · rw [pf_snd_false t c h]

theorem C5_no_spurious_write_witness :
    process_file_simple 5 noDeclInput = (noDeclInput, false) ∧
    process_file 5 noDeclInput = (noDeclInput, false) ∧
    (process_file_simple 5 smallTestInput).1 ≠ smallTestInput :=
  ⟨((C5_no_spurious_write 5 noDeclInput).1 (by decide)).1,
    ((C5_no_spurious_write 5 noDeclInput).1 (by decide)).2,
    (C5_no_spurious_write 5 smallTestInput).2.2.1 (by decide)⟩

/-- C6: a declaration whose block never closes causes no modification and no
crash.  If the running brace depth stays positive on every line up to
end-of-text (the two hypotheses state this for the two scanners' own depth
accounting: `process_file` starts at depth 1 after the declaration line,
`add_timeout_to_file` starts from the declaration line's own balance), then
the closing-brace scan of `process_file` returns the lines unchanged with no
modification, and `add_timeout_to_file` does not inject for that
declaration; in both cases the outer scan simply continues. -/
theorem C6_unterminated_block_safe : ∀ (t : Nat) (lines : List Text) (i : Nat),
    (∀ n, i + 1 + n < lines.length → 0 < depthFrom lines 1 (i + 1) (n + 1)) →
    (∀ n, i + n < lines.length → 0 < depthFrom lines 0 i (n + 1)) →
    pfScan t lines (i + 1) 1 (lines.length - (i + 1)) = (lines, false) ∧
      atfInjects lines i = false := by
  intro t lines i h1 h2
  refine ⟨pfScan_stays_pos t lines _ _ _ h1, ?_⟩
  by_cases hi : i < lines.length
  · have hc0 : 0 < braceDelta (lines.getD i []) := by
      have := h2 0 (by omega)
      simpa [depthFrom] using this
    have hshift : ∀ n, i + 1 + n < lines.length →
        0 < depthFrom lines (braceDelta (lines.getD i [])) (i + 1) (n + 1) := by
      intro n hn
      have := h2 (n + 1) (by omega)
      simpa [depthFrom] using this
    have hge := atfFindClose_ge lines (lines.length - (i + 1)) (i + 1) _ hc0 hshift (by omega)
    unfold atfInjects
    rw [decide_eq_false (by omega)]
    rfl
  · have hlen0 : lines.length - (i + 1) = 0 := by omega
    unfold atfInjects
    rw [hlen0, show ∀ c, atfFindClose lines (i + 1) c 0 = i + 1 from fun c => rfl,
      decide_eq_false (by omega)]
    rfl

theorem C6_unterminated_block_safe_witness :
    pfScan 5 [w6line0, w6line1] 1 1 1 = ([w6line0, w6line1], false) ∧
    atfInjects [w6line0, w6line1] 0 = false := by
  refine C6_unterminated_block_safe 5 [w6line0, w6line1] 0 ?_ ?_
  · intro n hn
    simp only [List.length_cons, List.length_nil] at hn
    have hn0 : n = 0 := by omega
    subst hn0
    decide
  · intro n hn
    simp only [List.length_cons, List.length_nil] at hn
    have hn01 : n = 0 ∨ n = 1 := by omega
    rcases hn01 with h | h <;> subst h <;> decide

/-- C7: for every candidate file the batch driver of `add_all_timeouts.py`
processes, the injected duration is determined solely by the file's name:
whenever the rewriter modifies the file, a name in the configured network
set yields text containing `seconds: 10` and any other name yields text
containing `seconds: 5`. -/
theorem C7_duration_determined_by_name : ∀ (name : String) (c : Text),
    (driveFile name c).2 = true →
    (name ∈ network_test_files → secTok NETWORK_TIMEOUT <:+: (driveFile name c).1) ∧
    (name ∉ network_test_files → secTok DEFAULT_TIMEOUT <:+: (driveFile name c).1) := by
  intro name c h
  by_cases hp : name ∈ processed_files
  · unfold driveFile at h
    rw [if_pos hp] at h
    simp at h
  · unfold driveFile at h ⊢
    rw [if_neg hp] at h ⊢
    constructor
    · intro hn
      have hsel : select_timeout name = NETWORK_TIMEOUT := by
        unfold select_timeout
        rw [if_pos hn]
      rw [hsel] at h ⊢
      exact pfs_out_has _ _ _ (secTok_sub_injStr _) h
    · intro hn
      have hsel : select_timeout name = DEFAULT_TIMEOUT := by
        unfold select_timeout
        rw [if_neg hn]
      rw [hsel] at h ⊢
      exact pfs_out_has _ _ _ (secTok_sub_injStr _) h

theorem C7_duration_determined_by_name_witness :
    secTok NETWORK_TIMEOUT <:+: (driveFile zonegroupName smallTestInput).1 ∧
    secTok DEFAULT_TIMEOUT <:+: (driveFile fooName smallTestInput).1 :=
  ⟨(C7_duration_determined_by_name zonegroupName smallTestInput (by decide)).1 (by decide),
    (C7_duration_determined_by_name fooName smallTestInput (by decide)).2 (by decide)⟩

/-- C8: a file that already contains a timeout annotation of the recognized
form (the marker `timeout: Timeout(Duration(seconds:`) is left completely
untouched and reported as unchanged by both rewriters, for every configured
duration — in particular also in the default-duration group. -/
theorem C8_existing_timeout_untouched : ∀ (t : Nat) (c : Text),
    hasSub markerTok c = true →
    process_file_simple t c = (c, false) ∧ process_file t c = (c, false) := by
  intro t c h
  exact ⟨pfs_marker t c h, pf_marker t c h⟩

theorem C8_existing_timeout_untouched_witness :
    process_file_simple DEFAULT_TIMEOUT c8input = (c8input, false) ∧
    process_file DEFAULT_TIMEOUT c8input = (c8input, false) :=
  C8_existing_timeout_untouched DEFAULT_TIMEOUT c8input (by decide)

/-- C9: error containment of the batch driver.  A missing test directory
aborts with exit code 1 before any file is touched; otherwise the run always
completes with a per-file outcome for every file — a file whose read raises
is mapped to an error outcome by the per-file `try/except` boundary
(`process_file_checked`) and does not abort the remaining files. -/
theorem C9_error_containment : ∀ (files : List (String × Except String Text)),
    main_add_all false files = Except.error 1 ∧
    (∃ rs, main_add_all true files = Except.ok rs ∧ rs.length = files.length) ∧
    (∀ (t : Nat) (e : String), process_file_checked t (Except.error e) = ProcResult.err) := by
  intro files
  exact ⟨rfl, ⟨_, rfl, List.length_map files _⟩, fun _ _ => rfl⟩

/-- C10: the batch driver of `add_all_timeouts.py` never modifies a file
whose name is in the hard-coded processed set — such files are skipped
before the rewriter is invoked, regardless of content.  In particular
`discovery_test.dart`, although in the network set, is never injected into
by this driver. -/
theorem C10_processed_files_never_modified :
    (∀ (name : String) (c : Text), name ∈ processed_files → driveFile name c = (c, false)) ∧
    discoveryName ∈ network_test_files ∧
    ∀ c : Text, driveFile discoveryName c = (c, false) := by
  have hmem : discoveryName ∈ processed_files := by decide
  refine ⟨fun name c h => ?_, by decide, fun c => ?_⟩
  · unfold driveFile
    rw [if_pos h]
  · unfold driveFile
    rw [if_pos hmem]

theorem C10_processed_files_never_modified_witness :
    driveFile coreName smallTestInput = (smallTestInput, false) ∧
    driveFile discoveryName smallTestInput = (smallTestInput, false) ∧
    (process_file_simple (select_timeout discoveryName) smallTestInput).2 = true :=
  ⟨C10_processed_files_never_modified.1 coreName smallTestInput (by decide),
    C10_processed_files_never_modified.2.2 smallTestInput, by decide⟩

end Soco
